import Mathlib

/-!
Verification of the ingestion/caching layer of the cable/exchange price
preview service: the Kafka consumer cache (`kafka-consumer.js`), the Express
read API (`server.js`), the Vercel KV read/status/cron handlers, and the
client date formatter (`kafkaApi.ts`).

JavaScript strings are modeled as `List Char`; the in-memory `Map` as an
association list in insertion order (a `set` on an existing key replaces in
place, a new key is appended); the Vercel KV store as a structure holding
string-keyed entries, Redis sets, and the `lastSyncAt` key.
-/

namespace CableEx

/-- JavaScript strings, modeled as lists of characters. -/
abbrev JStr := List Char

/-- JavaScript truthiness of an optional string env var:
`undefined` and the empty string are falsy. -/
def truthyS (o : Option JStr) : Bool :=
  match o with
  | none => false
  | some s => !s.isEmpty

/-- A decoded JSON message payload as `eachMessage` sees it after
`JSON.parse`: the `date` field (`none` when the document has no such field)
together with the rest of the document, which the consumer treats as opaque. -/
structure MsgValue where
  date : Option JStr
  rest : JStr
deriving DecidableEq

/-- A raw Kafka message: its topic, and the result of `JSON.parse` on its
value (`none` when the parse throws). -/
structure RawMsg where
  topic : JStr
  parsed : Option MsgValue
deriving DecidableEq

/-- `Map.set`: replace the value in place when the key is present,
append the binding otherwise (JS `Map` iteration is insertion order). -/
def mapSet {β : Type} (s : List (JStr × β)) (k : JStr) (v : β) : List (JStr × β) :=
  match s with
  | [] => [(k, v)]
  | (k', v') :: t => if k' = k then (k, v) :: t else (k', v') :: mapSet t k v

/-- `Map.get`: the value bound to `k`, if any. -/
def mapGet {β : Type} (s : List (JStr × β)) (k : JStr) : Option β :=
  match s with
  | [] => none
  | (k', v') :: t => if k' = k then some v' else mapGet t k

/-- The in-memory `dataStore`: a `Map` keyed by `"topic:date"`. -/
abbrev Store := List (JStr × MsgValue)

/-- The cache key `` `${topic}:${date}` ``. -/
def keyFor (topic date : JStr) : JStr := topic ++ ':' :: date

/-- `eachMessage` of `kafka-consumer.js`: parse the message value; if it
parses and carries a truthy `date` field, cache the document under
`"topic:date"`; otherwise log and leave the store unchanged. -/
def eachMessage (store : Store) (m : RawMsg) : Store :=
  match m.parsed with
  | none => store
  | some v =>
    match v.date with
    | none => store
    | some d => if d.isEmpty then store else mapSet store (keyFor m.topic d) v

/-- The consumption loop: apply `eachMessage` to each message in order. -/
def processMessages (store : Store) (msgs : List RawMsg) : Store :=
  msgs.foldl eachMessage store

/-- `getDataForDate` of `kafka-consumer.js`: look up `"topic:date"`
(`null` modeled as `none`). -/
def getDataForDate (store : Store) (topic date : JStr) : Option MsgValue :=
  mapGet store (keyFor topic date)

-- ── association-list lemmas ─────────────────────────────────────────────

theorem mapSet_cons_pos {β : Type} (t : List (JStr × β)) (k : JStr) (v₀ v : β) :
    mapSet ((k, v₀) :: t) k v = (k, v) :: t := by
  simp only [mapSet, if_pos]

theorem mapSet_cons_neg {β : Type} (t : List (JStr × β)) {k₀ k : JStr} (v₀ v : β)
    (h : k₀ ≠ k) : mapSet ((k₀, v₀) :: t) k v = (k₀, v₀) :: mapSet t k v := by
  simp only [mapSet, if_neg h]

theorem mapGet_mapSet_self {β : Type} (s : List (JStr × β)) (k : JStr) (v : β) :
    mapGet (mapSet s k v) k = some v := by
  induction s with
  | nil => simp only [mapSet, mapGet, if_pos]
  | cons p t ih =>
    obtain ⟨k₀, v₀⟩ := p
    by_cases h : k₀ = k
    · subst h
      rw [mapSet_cons_pos]
      simp only [mapGet, if_pos]
    · rw [mapSet_cons_neg t v₀ v h]
      simp only [mapGet, if_neg h, ih]

theorem mapGet_mapSet_ne {β : Type} (s : List (JStr × β)) {k k' : JStr} (v : β)
    (h : k' ≠ k) : mapGet (mapSet s k v) k' = mapGet s k' := by
  induction s with
  | nil =>
    simp only [mapSet, mapGet, if_neg (Ne.symm h)]
  | cons p t ih =>
    obtain ⟨k₀, v₀⟩ := p
    by_cases h₀ : k₀ = k
    · subst h₀
      rw [mapSet_cons_pos]
      simp only [mapGet, if_neg (Ne.symm h)]
    · rw [mapSet_cons_neg t v₀ v h₀]
      by_cases h₁ : k₀ = k'
      · simp only [mapGet, if_pos h₁]
      · simp only [mapGet, if_neg h₁, ih]

theorem mapSet_mapSet_self {β : Type} (s : List (JStr × β)) (k : JStr) (v : β) :
    mapSet (mapSet s k v) k v = mapSet s k v := by
  induction s with
  | nil => simp only [mapSet, if_pos]
  | cons p t ih =>
    obtain ⟨k₀, v₀⟩ := p
    by_cases h : k₀ = k
    · subst h
      rw [mapSet_cons_pos, mapSet_cons_pos]
    · rw [mapSet_cons_neg t v₀ v h, mapSet_cons_neg (mapSet t k v) v₀ v h, ih]

theorem mem_keys_mapSet {β : Type} (s : List (JStr × β)) (k k' : JStr) (v : β) :
    k' ∈ (mapSet s k v).map Prod.fst ↔ k' = k ∨ k' ∈ s.map Prod.fst := by
  induction s with
  | nil =>
    simp only [mapSet, List.map_cons, List.map_nil, List.mem_cons,
      List.not_mem_nil, or_false]
  | cons p t ih =>
    obtain ⟨k₀, v₀⟩ := p
    by_cases h : k₀ = k
    · subst h
      rw [mapSet_cons_pos]
      simp only [List.map_cons, List.mem_cons]
      tauto
    · rw [mapSet_cons_neg t v₀ v h]
      simp only [List.map_cons, List.mem_cons, ih]
      tauto

theorem nodup_keys_mapSet {β : Type} (s : List (JStr × β)) (k : JStr) (v : β)
    (h : (s.map Prod.fst).Nodup) : ((mapSet s k v).map Prod.fst).Nodup := by
  induction s with
  | nil => simp only [mapSet, List.map_cons, List.map_nil, List.nodup_singleton]
  | cons p t ih =>
    obtain ⟨k₀, v₀⟩ := p
    simp only [List.map_cons, List.nodup_cons] at h
    by_cases hk : k₀ = k
    · subst hk
      rw [mapSet_cons_pos]
      simp only [List.map_cons, List.nodup_cons]
      exact h
    · rw [mapSet_cons_neg t v₀ v hk]
      simp only [List.map_cons, List.nodup_cons]
      refine ⟨fun hc => ?_, ih h.2⟩
      rcases (mem_keys_mapSet t k k₀ v).1 hc with h' | h'
      · exact hk h'
      · exact h.1 h'

theorem mapGet_isSome_iff_mem {β : Type} (s : List (JStr × β)) (k : JStr) :
    (mapGet s k).isSome ↔ k ∈ s.map Prod.fst := by
  induction s with
  | nil => simp only [mapGet, Option.isSome_none, List.map_nil, List.not_mem_nil,
      Bool.false_eq_true]
  | cons p t ih =>
    obtain ⟨k₀, v₀⟩ := p
    by_cases h : k₀ = k
    · subst h
      simp only [mapGet, if_pos, Option.isSome_some, List.map_cons, List.mem_cons]
      tauto
    · simp only [mapGet, if_neg h, List.map_cons, List.mem_cons, ih]
      constructor
      · intro hm; exact Or.inr hm
      · rintro (rfl | hm)
        · exact absurd rfl h
        · exact hm

-- ── store invariants under eachMessage ──────────────────────────────────

theorem nodup_keys_eachMessage (s : Store) (m : RawMsg)
    (h : (s.map Prod.fst).Nodup) : ((eachMessage s m).map Prod.fst).Nodup := by
  obtain ⟨t, p⟩ := m
  cases p with
  | none => exact h
  | some v =>
    obtain ⟨od, rest⟩ := v
    cases od with
    | none => exact h
    | some d =>
      cases d with
      | nil => exact h
      | cons c cs =>
        simpa only [eachMessage, List.isEmpty_cons, if_neg (by decide : ¬(false = true))]
          using nodup_keys_mapSet s _ _ h

theorem nodup_keys_processMessages (msgs : List RawMsg) (s : Store)
    (h : (s.map Prod.fst).Nodup) :
    ((processMessages s msgs).map Prod.fst).Nodup := by
  induction msgs generalizing s with
  | nil => exact h
  | cons m rest ih =>
    exact ih (eachMessage s m) (nodup_keys_eachMessage s m h)

/-- **C1.** Last-write-wins per key: after applying any message `a` and then a
message `b` carrying key `(t, d)`, `getDataForDate t d` returns `b`'s payload,
regardless of `a`'s content; and every store reachable from the empty store
by message application has at most one entry per key (its key list is
duplicate-free). -/
theorem last_write_wins (s : Store) (a : RawMsg) (t d : JStr) (vb : MsgValue)
    (hb : vb.date = some d) (hd : d ≠ []) :
    getDataForDate (eachMessage (eachMessage s a) ⟨t, some vb⟩) t d = some vb ∧
    ∀ msgs : List RawMsg,
      ((processMessages [] msgs).map Prod.fst).Nodup := by
  constructor
  · have hde : ¬(d.isEmpty = true) := by
      cases d with
      | nil => exact absurd rfl hd
      | cons c cs => exact Bool.false_ne_true
    simp only [eachMessage, hb, getDataForDate, if_neg hde, mapGet_mapSet_self]
  · intro msgs
    exact nodup_keys_processMessages msgs []
      (by simp only [List.map_nil, List.nodup_nil])

/-- Witness for `last_write_wins` at a concrete store and concrete messages:
an earlier payload for `("cables", "2026-02-28")` is replaced by the later one. -/
theorem last_write_wins_witness :
    getDataForDate
      (eachMessage
        (eachMessage []
          ⟨"cables".toList, some ⟨some "2026-02-28".toList, "old".toList⟩⟩)
        ⟨"cables".toList, some ⟨some "2026-02-28".toList, "new".toList⟩⟩)
      "cables".toList "2026-02-28".toList
      = some ⟨some "2026-02-28".toList, "new".toList⟩ :=
  (last_write_wins []
    ⟨"cables".toList, some ⟨some "2026-02-28".toList, "old".toList⟩⟩
    "cables".toList "2026-02-28".toList
    ⟨some "2026-02-28".toList, "new".toList⟩ rfl (by decide)).1

-- ── durable topology: Vercel KV store and the cron job's eachMessage ────

/-- The Vercel KV (Redis) contents touched by this system: the string-keyed
documents written by `kv.set(kvKey, JSON.stringify(value))` (the stringify /
re-parse round trip is identity on documents, so the stored document is kept
structured), the Redis sets written by `kv.sadd`, and the `lastSyncAt` key. -/
structure KVStore where
  entries : List (JStr × MsgValue)
  dateSets : List (JStr × List JStr)
  lastSyncAt : Option JStr
deriving DecidableEq

/-- Redis `SADD` on a member list: append the member unless present. -/
def saddList (l : List JStr) (x : JStr) : List JStr :=
  if x ∈ l then l else l ++ [x]

/-- `kv.set` on a document key. -/
def kvSet (kv : KVStore) (k : JStr) (v : MsgValue) : KVStore :=
  { kv with entries := mapSet kv.entries k v }

/-- `kv.sadd`: add a member to the set stored at `k` (creating it if absent). -/
def kvSadd (kv : KVStore) (k : JStr) (x : JStr) : KVStore :=
  { kv with dateSets := mapSet kv.dateSets k (saddList ((mapGet kv.dateSets k).getD []) x) }

/-- `kv.smembers`, `none` (missing set) read as the empty list. -/
def smembersList (kv : KVStore) (k : JStr) : List JStr :=
  (mapGet kv.dateSets k).getD []

/-- The per-topic date-set key `` `${topic}:dates` ``. -/
def datesKey (topic : JStr) : JStr := topic ++ ":dates".toList

/-- `eachMessage` of the cron job (`api/cron/fetch-kafka`): parse the value;
if it parses and carries a truthy `date`, write the document under
`"topic:date"` and add the date to the topic's date set; otherwise log and
leave the store unchanged. -/
def kvEachMessage (kv : KVStore) (m : RawMsg) : KVStore :=
  match m.parsed with
  | none => kv
  | some v =>
    match v.date with
    | none => kv
    | some d =>
      if d.isEmpty then kv
      else kvSadd (kvSet kv (keyFor m.topic d) v) (datesKey m.topic) d

/-- Whether `eachMessage` applies a message (increments `messageCount`). -/
def msgApplies (m : RawMsg) : Bool :=
  match m.parsed with
  | none => false
  | some v =>
    match v.date with
    | none => false
    | some d => !d.isEmpty

theorem saddList_mem_self (l : List JStr) (x : JStr) : x ∈ saddList l x := by
  by_cases h : x ∈ l
  · rw [saddList, if_pos h]; exact h
  · rw [saddList, if_neg h]
    exact List.mem_append_right _ (List.mem_singleton.mpr rfl)

theorem saddList_of_mem (l : List JStr) {x : JStr} (h : x ∈ l) :
    saddList l x = l := by
  simp only [saddList, if_pos h]

theorem isEmpty_false_of_ne_nil {d : JStr} (hd : d ≠ []) : ¬(d.isEmpty = true) := by
  cases d with
  | nil => exact absurd rfl hd
  | cons c cs => exact Bool.false_ne_true

/-- The applied form of the in-memory `eachMessage` on a well-formed message. -/
theorem eachMessage_applied (s : Store) (t d rest : JStr) (hd : d ≠ []) :
    eachMessage s ⟨t, some ⟨some d, rest⟩⟩ = mapSet s (keyFor t d) ⟨some d, rest⟩ := by
  simp only [eachMessage, if_neg (isEmpty_false_of_ne_nil hd)]

/-- The applied form of the cron job's `eachMessage` on a well-formed message. -/
theorem kvEachMessage_applied (kv : KVStore) (t d rest : JStr) (hd : d ≠ []) :
    kvEachMessage kv ⟨t, some ⟨some d, rest⟩⟩ =
      { entries := mapSet kv.entries (keyFor t d) ⟨some d, rest⟩
        dateSets := mapSet kv.dateSets (datesKey t)
          (saddList ((mapGet kv.dateSets (datesKey t)).getD []) d)
        lastSyncAt := kv.lastSyncAt } := by
  simp only [kvEachMessage, if_neg (isEmpty_false_of_ne_nil hd), kvSadd, kvSet]

/-- **C6.** Idempotent message application: applying the same message twice —
on the in-memory store and on the durable store with its per-topic date
index — leaves the store in exactly the state of applying it once. -/
theorem message_application_idempotent (s : Store) (kv : KVStore) (m : RawMsg) :
    eachMessage (eachMessage s m) m = eachMessage s m ∧
    kvEachMessage (kvEachMessage kv m) m = kvEachMessage kv m := by
  obtain ⟨t, p⟩ := m
  cases p with
  | none => exact ⟨rfl, rfl⟩
  | some v =>
    obtain ⟨od, rest⟩ := v
    cases od with
    | none => exact ⟨rfl, rfl⟩
    | some d =>
      cases d with
      | nil => exact ⟨rfl, rfl⟩
      | cons c cs =>
        have hd : (c :: cs) ≠ ([] : JStr) := by simp
        constructor
        · rw [eachMessage_applied s t _ rest hd,
            eachMessage_applied _ t _ rest hd, mapSet_mapSet_self]
        · rw [kvEachMessage_applied kv t _ rest hd,
            kvEachMessage_applied _ t _ rest hd]
          simp only [KVStore.mk.injEq, mapSet_mapSet_self, mapGet_mapSet_self,
            Option.getD_some]
          refine ⟨trivial, ?_, trivial⟩
          rw [saddList_of_mem _ (saddList_mem_self _ _), mapSet_mapSet_self]

/-- **C5.** Decode-failure recovery: a message that fails to parse, or whose
parsed payload lacks a `date` field, leaves both cache stores unchanged, and
the consumption loop never halts on it — processing a sequence containing
such a message equals processing the sequence with it removed. -/
theorem decode_failure_recovery (s : Store) (kv : KVStore) (m : RawMsg)
    (pre post : List RawMsg)
    (hbad : m.parsed = none ∨ ∃ v, m.parsed = some v ∧ v.date = none) :
    eachMessage s m = s ∧ kvEachMessage kv m = kv ∧
    processMessages s (pre ++ m :: post) = processMessages s (pre ++ post) := by
  have hskip : ∀ s' : Store, eachMessage s' m = s' := by
    intro s'
    rcases hbad with h | ⟨v, hp, hd⟩
    · simp only [eachMessage, h]
    · simp only [eachMessage, hp, hd]
  have hkv : kvEachMessage kv m = kv := by
    rcases hbad with h | ⟨v, hp, hd⟩
    · simp only [kvEachMessage, h]
    · simp only [kvEachMessage, hp, hd]
  refine ⟨hskip s, hkv, ?_⟩
  unfold processMessages
  rw [List.foldl_append, List.foldl_append, List.foldl_cons, hskip]

/-- Witness for `decode_failure_recovery`: a malformed message between two
well-formed ones is dropped and the rest of the sequence is still applied. -/
theorem decode_failure_recovery_witness :
    processMessages []
        [⟨"cables".toList, some ⟨some "2026-02-27".toList, "a".toList⟩⟩,
         ⟨"cables".toList, none⟩,
         ⟨"cables".toList, some ⟨some "2026-02-28".toList, "b".toList⟩⟩] =
      processMessages []
        [⟨"cables".toList, some ⟨some "2026-02-27".toList, "a".toList⟩⟩,
         ⟨"cables".toList, some ⟨some "2026-02-28".toList, "b".toList⟩⟩] :=
  (decode_failure_recovery [] ⟨[], [], none⟩ ⟨"cables".toList, none⟩
    [⟨"cables".toList, some ⟨some "2026-02-27".toList, "a".toList⟩⟩]
    [⟨"cables".toList, some ⟨some "2026-02-28".toList, "b".toList⟩⟩]
    (Or.inl rfl)).2.2

-- ── the Vercel cron sync handler ────────────────────────────────────────

/-- The environment variables read by the cron handler. -/
structure CronEnv where
  cronSecret : Option JStr
  caB64 : Option JStr
  certB64 : Option JStr
  keyB64 : Option JStr

/-- The external events of one cron invocation: whether connect/subscribe
succeed, the messages observed before the 25-second race settles, and whether
the final `consumer.disconnect()` succeeds.  Error messages raised by the
failing operations are carried along so the 500 body can report them. -/
structure CronWorld where
  connectOk : Bool
  connectErrMsg : JStr
  observed : List RawMsg
  disconnectOk : Bool
  disconnectErrMsg : JStr

/-- The response of the cron handler. -/
inductive CronResp where
  /-- `401 {error: 'Unauthorized'}` -/
  | unauthorized : CronResp
  /-- `200 {success: true, messagesProcessed, syncedAt}` -/
  | ok (messagesProcessed : Nat) (syncedAt : JStr) : CronResp
  /-- `500 {error}` -/
  | serverError (msg : JStr) : CronResp
deriving DecidableEq

/-- The bearer value the handler compares against:
`` `Bearer ${process.env.CRON_SECRET}` `` (an unset secret interpolates as
the string `"undefined"`). -/
def bearerExpected (env : CronEnv) : JStr :=
  "Bearer ".toList ++ env.cronSecret.getD "undefined".toList

/-- The error message thrown by the cron job's `loadSSLCerts`. -/
def missingCertsMsg : JStr :=
  "Missing KAFKA_CA_B64, KAFKA_CERT_B64, or KAFKA_KEY_B64 env vars".toList

/-- The cron handler (`api/cron/fetch-kafka`): check the bearer secret, load
the base64 certs (throwing into the catch block if any is missing), connect
and subscribe, race message consumption against the 25-second timer applying
each observed message durably, stamp `lastSyncAt`, then disconnect.  Any
throw lands in the catch block, which attempts a disconnect of its own with
the failure swallowed, and returns 500. -/
def cronHandler (env : CronEnv) (authHeader : Option JStr) (w : CronWorld)
    (now : JStr) (kv : KVStore) : CronResp × KVStore :=
  if authHeader ≠ some (bearerExpected env) then
    (.unauthorized, kv)
  else if ¬(truthyS env.caB64 && truthyS env.certB64 && truthyS env.keyB64) then
    (.serverError missingCertsMsg, kv)
  else if ¬w.connectOk then
    (.serverError w.connectErrMsg, kv)
  else
    let kv1 := w.observed.foldl kvEachMessage kv
    let kv2 := { kv1 with lastSyncAt := some now }
    if w.disconnectOk then
      (.ok (w.observed.countP msgApplies) now, kv2)
    else
      (.serverError w.disconnectErrMsg, kv2)

/-- **C2.** Authorization gate: when the bearer credential does not match the
configured secret, the handler answers 401, the durable store is returned
completely unchanged, and the outcome is independent of the broker world —
no connection outcome or observed message can influence it. -/
theorem authorization_gate (env : CronEnv) (authHeader : Option JStr)
    (w : CronWorld) (now : JStr) (kv : KVStore)
    (hbad : authHeader ≠ some (bearerExpected env)) :
    cronHandler env authHeader w now kv = (.unauthorized, kv) := by
  simp only [cronHandler, if_pos hbad]

/-- Witness for `authorization_gate`: a wrong bearer against secret
`"s3cret"`, with a valid message available, writes nothing. -/
theorem authorization_gate_witness :
    cronHandler
      ⟨some "s3cret".toList, some "Y2E=".toList, some "Y2VydA==".toList,
        some "a2V5".toList⟩
      (some "Bearer wrong".toList)
      ⟨true, [], [⟨"cables".toList, some ⟨some "2026-02-28".toList, "p".toList⟩⟩],
        true, []⟩
      "2026-02-28T12:00:00Z".toList ⟨[], [], none⟩
      = (.unauthorized, ⟨[], [], none⟩) :=
  authorization_gate _ _ _ _ _ (by decide)

/-- **C8** is refuted: a failing `consumer.disconnect()` after the race lands
in the catch block and the invocation returns 500, not success.  Two runs
identical except for the close failure report different outcomes, and the
failing run does not report success with the message count. -/
theorem teardown_failure_changes_outcome :
    ((cronHandler ⟨some "s".toList, some "a".toList, some "b".toList, some "c".toList⟩
        (some "Bearer s".toList) ⟨true, [], [], true, "boom".toList⟩
        "t0".toList ⟨[], [], none⟩).fst
      = .ok 0 "t0".toList) ∧
    ((cronHandler ⟨some "s".toList, some "a".toList, some "b".toList, some "c".toList⟩
        (some "Bearer s".toList) ⟨true, [], [], false, "boom".toList⟩
        "t0".toList ⟨[], [], none⟩).fst
      = .serverError "boom".toList) := by
  constructor <;> decide

/-- **C8 amended.** When authorization, credential loading, connect and the
race all succeed but the subsequent session close fails, the invocation
reports a 500 failure (the close failure is *not* swallowed into a success),
while every durable write of the run — the message upserts, the date-set
additions and the `lastSyncAt` stamp — is retained exactly as in a run whose
close succeeds; only the reported outcome differs. -/
theorem teardown_failure_amended (env : CronEnv) (authHeader : Option JStr)
    (w : CronWorld) (now : JStr) (kv : KVStore)
    (hauth : authHeader = some (bearerExpected env))
    (hcerts : (truthyS env.caB64 && truthyS env.certB64 && truthyS env.keyB64) = true)
    (hconn : w.connectOk = true) (hdisc : w.disconnectOk = false) :
    cronHandler env authHeader w now kv =
      (.serverError w.disconnectErrMsg,
        { w.observed.foldl kvEachMessage kv with lastSyncAt := some now }) ∧
    (cronHandler env authHeader w now kv).snd =
      (cronHandler env authHeader { w with disconnectOk := true } now kv).snd := by
  have h1 : ¬(authHeader ≠ some (bearerExpected env)) := by
    simp only [hauth, ne_eq, not_true_eq_false, not_false_eq_true]
  constructor
  · simp only [cronHandler, if_neg h1, hcerts, Bool.not_true, hconn, hdisc,
      Bool.false_eq_true, if_neg, if_pos, not_true_eq_false, not_false_eq_true,
      ite_false, ite_true]
  · simp only [cronHandler, if_neg h1, hcerts, Bool.not_true, hconn, hdisc,
      Bool.false_eq_true, not_true_eq_false, not_false_eq_true,
      ite_false, ite_true]

/-- Witness for `teardown_failure_amended`: one applied message, close fails;
the outcome is the 500, and the store equals the clean run's store. -/
theorem teardown_failure_amended_witness :
    cronHandler ⟨some "s".toList, some "a".toList, some "b".toList, some "c".toList⟩
        (some "Bearer s".toList)
        ⟨true, [], [⟨"cables".toList, some ⟨some "2026-02-28".toList, "p".toList⟩⟩],
          false, "boom".toList⟩
        "t0".toList ⟨[], [], none⟩ =
      (.serverError "boom".toList,
        { ([⟨"cables".toList, some ⟨some "2026-02-28".toList, "p".toList⟩⟩] :
            List RawMsg).foldl kvEachMessage ⟨[], [], none⟩ with
          lastSyncAt := some "t0".toList }) :=
  (teardown_failure_amended
    ⟨some "s".toList, some "a".toList, some "b".toList, some "c".toList⟩
    (some "Bearer s".toList)
    ⟨true, [], [⟨"cables".toList, some ⟨some "2026-02-28".toList, "p".toList⟩⟩],
      false, "boom".toList⟩
    "t0".toList ⟨[], [], none⟩
    (by decide) (by decide) rfl rfl).1

-- ── credential resolution in kafka-consumer.js ──────────────────────────

/-- The environment variables read by `loadSSLCerts` / `startConsumer`. -/
structure ConsumerEnv where
  caB64 : Option JStr
  certB64 : Option JStr
  keyB64 : Option JStr
  certsDir : Option JStr
  caPath : Option JStr
  certPath : Option JStr
  keyPath : Option JStr

/-- The filesystem as `loadSSLCerts` sees it: existence and contents. -/
structure FileSystem where
  pathExists : JStr → Bool
  readFile : JStr → JStr

/-- The `{ca, cert, key}` bundle returned by `loadSSLCerts`. -/
structure SSLCerts where
  ca : JStr
  cert : JStr
  key : JStr
deriving DecidableEq

/-- JS `a || b` on an optional env string: the default wins when the
variable is unset or empty. -/
def orDefault (o : Option JStr) (d : JStr) : JStr :=
  match o with
  | none => d
  | some s => if s.isEmpty then d else s

/-- `path.resolve(__dirname, '..', 'certs')`, the conventional local certs
directory, as an abstract absolute path. -/
def defaultCertsDir : JStr := "<app>/../certs".toList

/-- `path.join`. -/
def pathJoin (dir file : JStr) : JStr := dir ++ '/' :: file

/-- The directory and three file paths after `||`-defaulting. -/
def resolvedCertsDir (env : ConsumerEnv) : JStr :=
  orDefault env.certsDir defaultCertsDir

def resolvedCaPath (env : ConsumerEnv) : JStr :=
  orDefault env.caPath (pathJoin (resolvedCertsDir env) "ca.pem".toList)

def resolvedCertPath (env : ConsumerEnv) : JStr :=
  orDefault env.certPath (pathJoin (resolvedCertsDir env) "service.cert".toList)

def resolvedKeyPath (env : ConsumerEnv) : JStr :=
  orDefault env.keyPath (pathJoin (resolvedCertsDir env) "service.key".toList)

/-- Whether all three base64 variables are truthy (present and nonempty). -/
def b64Complete (env : ConsumerEnv) : Bool :=
  truthyS env.caB64 && truthyS env.certB64 && truthyS env.keyB64

/-- `loadSSLCerts` of `kafka-consumer.js`, with `dec` standing for
`Buffer.from(·, 'base64').toString('utf-8')`: use the base64 triple when all
three are set, otherwise fall back to the (defaulted) file paths, returning
`null` when any of the three files is missing. -/
def loadSSLCerts (dec : JStr → JStr) (env : ConsumerEnv) (fs : FileSystem) :
    Option SSLCerts :=
  if b64Complete env then
    some ⟨dec (env.caB64.getD []), dec (env.certB64.getD []), dec (env.keyB64.getD [])⟩
  else
    if !fs.pathExists (resolvedCaPath env) || !fs.pathExists (resolvedCertPath env)
        || !fs.pathExists (resolvedKeyPath env) then
      none
    else
      some ⟨fs.readFile (resolvedCaPath env), fs.readFile (resolvedCertPath env),
        fs.readFile (resolvedKeyPath env)⟩

/-- The credential gate of `startConsumer` (lines 69–73): on a `null` bundle
set status `'error: missing SSL certs'` and return without building a Kafka
client; otherwise proceed to connect with the bundle. -/
inductive StartOutcome where
  | noCerts : StartOutcome
  | connectionAttempted (ssl : SSLCerts) : StartOutcome
deriving DecidableEq

def startConsumerGate (dec : JStr → JStr) (env : ConsumerEnv) (fs : FileSystem) :
    StartOutcome :=
  match loadSSLCerts dec env fs with
  | none => .noCerts
  | some ssl => .connectionAttempted ssl

/-- **C3.** Credential resolution order: the base64 triple is used iff all
three base64 values are truthy (and then the filesystem is never consulted);
otherwise the decoded base64 values play no role at all (no partial use) and
resolution succeeds iff all three defaulted file paths exist; and when
resolution fails, `startConsumer` records the configuration error and
attempts no broker connection. -/
theorem credential_resolution (dec : JStr → JStr) (env : ConsumerEnv)
    (fs : FileSystem) :
    (b64Complete env = true →
      loadSSLCerts dec env fs =
        some ⟨dec (env.caB64.getD []), dec (env.certB64.getD []),
          dec (env.keyB64.getD [])⟩) ∧
    (b64Complete env = false →
      loadSSLCerts dec env fs =
        loadSSLCerts dec
          { env with caB64 := none, certB64 := none, keyB64 := none } fs ∧
      ((loadSSLCerts dec env fs).isSome ↔
        fs.pathExists (resolvedCaPath env) = true ∧
        fs.pathExists (resolvedCertPath env) = true ∧
        fs.pathExists (resolvedKeyPath env) = true)) ∧
    (loadSSLCerts dec env fs = none →
      startConsumerGate dec env fs = .noCerts) := by
  refine ⟨fun hall => ?_, fun hnone => ?_, fun hfail => ?_⟩
  · simp only [loadSSLCerts, if_pos hall]
  · have henv : b64Complete { env with caB64 := none, certB64 := none, keyB64 := none }
        = false := by
      simp only [b64Complete, truthyS, Bool.false_and]
    have hsame : resolvedCaPath { env with caB64 := none, certB64 := none, keyB64 := none }
        = resolvedCaPath env ∧
        resolvedCertPath { env with caB64 := none, certB64 := none, keyB64 := none }
        = resolvedCertPath env ∧
        resolvedKeyPath { env with caB64 := none, certB64 := none, keyB64 := none }
        = resolvedKeyPath env := ⟨rfl, rfl, rfl⟩
    constructor
    · simp only [loadSSLCerts, hnone, henv, Bool.false_eq_true, if_neg,
        not_false_eq_true, hsame.1, hsame.2.1, hsame.2.2]
    · simp only [loadSSLCerts, hnone, Bool.false_eq_true, if_neg, not_false_eq_true]
      by_cases h1 : fs.pathExists (resolvedCaPath env) = true <;>
        by_cases h2 : fs.pathExists (resolvedCertPath env) = true <;>
          by_cases h3 : fs.pathExists (resolvedKeyPath env) = true <;>
            simp [h1, h2, h3]
  · simp only [startConsumerGate, hfail]

/-- Witness for `credential_resolution` at concrete inputs: with only two of
the three base64 variables set and an empty filesystem, resolution ignores
the base64 values and fails, and `startConsumer` attempts no connection. -/
theorem credential_resolution_witness :
    (loadSSLCerts id
        ⟨some "Y2E=".toList, some "Y2VydA==".toList, none, none, none, none, none⟩
        ⟨fun _ => false, fun _ => []⟩).isSome = false ∧
    startConsumerGate id
        ⟨some "Y2E=".toList, some "Y2VydA==".toList, none, none, none, none, none⟩
        ⟨fun _ => false, fun _ => []⟩ = .noCerts := by
  have h := credential_resolution id
    ⟨some "Y2E=".toList, some "Y2VydA==".toList, none, none, none, none, none⟩
    ⟨fun _ => false, fun _ => []⟩
  have hiff := (h.2.1 (by decide)).2
  have hnone : loadSSLCerts id
      ⟨some "Y2E=".toList, some "Y2VydA==".toList, none, none, none, none, none⟩
      ⟨fun _ => false, fun _ => []⟩ = none := by
    cases hopt : loadSSLCerts id
        ⟨some "Y2E=".toList, some "Y2VydA==".toList, none, none, none, none, none⟩
        ⟨fun _ => false, fun _ => []⟩ with
    | none => rfl
    | some c =>
      exact absurd (hiff.mp (by rw [hopt]; rfl)).1 (by decide)
  exact ⟨by rw [hnone]; rfl, h.2.2 hnone⟩

-- ── string order (JS default Array.sort comparator) ─────────────────────

/-- JS string comparison: lexicographic on code units. -/
def strLe : JStr → JStr → Bool
  | [], _ => true
  | _ :: _, [] => false
  | a :: as, b :: bs =>
    if a < b then true else if b < a then false else strLe as bs

theorem strLe_total : ∀ a b : JStr, strLe a b = true ∨ strLe b a = true := by
  intro a
  induction a with
  | nil => intro b; exact Or.inl rfl
  | cons x as ih =>
    intro b
    cases b with
    | nil => exact Or.inr rfl
    | cons y bs =>
      by_cases h1 : x < y
      · left; simp only [strLe, if_pos h1]
      · by_cases h2 : y < x
        · right; simp only [strLe, if_pos h2]
        · have hxy : x = y := le_antisymm (not_lt.1 h2) (not_lt.1 h1)
          subst hxy
          rcases ih bs with h | h
          · left; simp only [strLe, if_neg h1, if_neg h2, h]
          · right; simp only [strLe, if_neg h1, if_neg h2, h]

theorem strLe_trans : ∀ {a b c : JStr},
    strLe a b = true → strLe b c = true → strLe a c = true := by
  intro a
  induction a with
  | nil => intro b c _ _; rfl
  | cons x as ih =>
    intro b c hab hbc
    cases b with
    | nil => exact absurd hab (by simp [strLe])
    | cons y bs =>
      cases c with
      | nil => exact absurd hbc (by simp [strLe])
      | cons z cs =>
        by_cases hxy : x < y
        · by_cases hyz : y < z
          · simp only [strLe, if_pos (lt_trans hxy hyz)]
          · by_cases hzy : z < y
            · rw [strLe, if_neg hyz, if_pos hzy] at hbc
              exact absurd hbc (by simp)
            · have : y = z := le_antisymm (not_lt.1 hzy) (not_lt.1 hyz)
              subst this
              simp only [strLe, if_pos hxy]
        · by_cases hyx : y < x
          · rw [strLe, if_neg hxy, if_pos hyx] at hab
            exact absurd hab (by simp)
          · have hxyeq : x = y := le_antisymm (not_lt.1 hyx) (not_lt.1 hxy)
            subst hxyeq
            rw [strLe, if_neg hxy, if_neg hyx] at hab
            by_cases hyz : x < z
            · simp only [strLe, if_pos hyz]
            · by_cases hzy : z < x
              · rw [strLe, if_neg hyz, if_pos hzy] at hbc
                exact absurd hbc (by simp)
              · rw [strLe, if_neg hyz, if_neg hzy] at hbc ⊢
                exact ih hab hbc

theorem strLe_antisymm : ∀ {a b : JStr},
    strLe a b = true → strLe b a = true → a = b := by
  intro a
  induction a with
  | nil =>
    intro b _ hba
    cases b with
    | nil => rfl
    | cons y bs => exact absurd hba (by simp [strLe])
  | cons x as ih =>
    intro b hab hba
    cases b with
    | nil => exact absurd hab (by simp [strLe])
    | cons y bs =>
      by_cases hxy : x < y
      · rw [strLe, if_neg (lt_asymm hxy), if_pos hxy] at hba
        exact absurd hba (by simp)
      · by_cases hyx : y < x
        · rw [strLe, if_neg hxy, if_pos hyx] at hab
          exact absurd hab (by simp)
        · have hxyeq : x = y := le_antisymm (not_lt.1 hyx) (not_lt.1 hxy)
          subst hxyeq
          rw [strLe, if_neg hxy, if_neg hxy] at hab hba
          rw [ih hab hba]

/-- The propositional form of `strLe`, for the sorting lemmas. -/
def StrLE (a b : JStr) : Prop := strLe a b = true

instance : DecidableRel StrLE :=
  fun a b => inferInstanceAs (Decidable (strLe a b = true))

instance : IsTrans JStr StrLE := ⟨fun _ _ _ => strLe_trans⟩

instance : IsTotal JStr StrLE := ⟨strLe_total⟩

instance : IsAntisymm JStr StrLE := ⟨fun _ _ => strLe_antisymm⟩

/-- JS `Array.prototype.sort()` with the default comparator. -/
def sortStrs (l : List JStr) : List JStr := l.insertionSort StrLE

theorem sortStrs_sorted (l : List JStr) : (sortStrs l).Sorted StrLE :=
  List.sorted_insertionSort StrLE l

theorem sortStrs_perm (l : List JStr) : (sortStrs l).Perm l :=
  List.perm_insertionSort StrLE l

theorem mem_sortStrs (l : List JStr) (x : JStr) : x ∈ sortStrs l ↔ x ∈ l :=
  (sortStrs_perm l).mem_iff

-- ── getAvailableDates and the read endpoints ────────────────────────────

/-- JS `String.prototype.split(sep)` on one-character separators. -/
def splitChar (sep : Char) : JStr → List JStr
  | [] => [[]]
  | c :: rest =>
    match splitChar sep rest with
    | [] => [[]]
    | h :: t => if c = sep then [] :: h :: t else (c :: h) :: t

/-- `getAvailableDates` of `kafka-consumer.js`: for every store key starting
with `"topic:"` collect `key.split(':')[1]`, then sort.  (An index-1 miss —
impossible for keys built by `eachMessage` — is read as the empty string.) -/
def getAvailableDates (store : Store) (topic : JStr) : List JStr :=
  sortStrs (((store.map Prod.fst).filter
      fun k => (topic ++ [':']).isPrefixOf k).map
      fun k => ((splitChar ':' k)[1]?).getD [])

def topicCables : JStr := "cables".toList

def topicExchanges : JStr := "exchanges".toList

/-- Digit characters, as matched by the route regex's `\d`. -/
def isDigitCh (c : Char) : Bool := '0' ≤ c && c ≤ '9'

/-- The route validation regex `/^\d{4}-\d{2}-\d{2}$/`. -/
def matchesDatePattern (s : JStr) : Bool :=
  match s with
  | [y1, y2, y3, y4, h1, m1, m2, h2, d1, d2] =>
    isDigitCh y1 && isDigitCh y2 && isDigitCh y3 && isDigitCh y4 &&
    (h1 == '-') && isDigitCh m1 && isDigitCh m2 &&
    (h2 == '-') && isDigitCh d1 && isDigitCh d2
  | _ => false

def invalidDateMsg : JStr := "Invalid date format. Use YYYY-MM-DD".toList

/-- A response of the per-date read endpoints. -/
inductive DateResp where
  /-- `400 {error}` -/
  | badRequest (error : JStr) : DateResp
  /-- the miss shape `{date, source, data: [], available_dates}` -/
  | missBody (date source : JStr) (availableDates : List JStr) : DateResp
  /-- the stored payload, returned as-is -/
  | payload (v : MsgValue) : DateResp
deriving DecidableEq

/-- `GET /api/cables/:date` of `server.js`. -/
def getCablesByDate (store : Store) (date : JStr) : DateResp :=
  if !matchesDatePattern date then .badRequest invalidDateMsg
  else
    match getDataForDate store topicCables date with
    | none => .missBody date topicCables (getAvailableDates store topicCables)
    | some v => .payload v

/-- `GET /api/exchanges/:date` of `server.js`. -/
def getExchangesByDate (store : Store) (date : JStr) : DateResp :=
  if !matchesDatePattern date then .badRequest invalidDateMsg
  else
    match getDataForDate store topicExchanges date with
    | none => .missBody date topicExchanges (getAvailableDates store topicExchanges)
    | some v => .payload v

/-- **C4.** Read-by-date contract: a date failing the `YYYY-MM-DD` pattern
yields the 400 body on both endpoints for *every* store (so no store access
can influence the answer); a matching date with no stored entry yields the
`{date, source, data: [], available_dates}` shape, never an error; a
matching date with a stored entry yields the stored payload as-is. -/
theorem read_by_date_contract (store : Store) (date : JStr) :
    (matchesDatePattern date = false →
      ∀ s' : Store, getCablesByDate s' date = .badRequest invalidDateMsg ∧
        getExchangesByDate s' date = .badRequest invalidDateMsg) ∧
    (matchesDatePattern date = true →
      (getDataForDate store topicCables date = none →
        getCablesByDate store date =
          .missBody date topicCables (getAvailableDates store topicCables)) ∧
      (∀ v, getDataForDate store topicCables date = some v →
        getCablesByDate store date = .payload v) ∧
      (getDataForDate store topicExchanges date = none →
        getExchangesByDate store date =
          .missBody date topicExchanges (getAvailableDates store topicExchanges)) ∧
      (∀ v, getDataForDate store topicExchanges date = some v →
        getExchangesByDate store date = .payload v)) := by
  constructor
  · intro hbad s'
    constructor <;>
      simp only [getCablesByDate, getExchangesByDate, hbad, Bool.not_false, if_pos]
  · intro hok
    have hif : ¬((!matchesDatePattern date) = true) := by rw [hok]; exact Bool.false_ne_true
    refine ⟨fun hnone => ?_, fun v hv => ?_, fun hnone => ?_, fun v hv => ?_⟩
    · simp only [getCablesByDate, if_neg hif, hnone]
    · simp only [getCablesByDate, if_neg hif, hv]
    · simp only [getExchangesByDate, if_neg hif, hnone]
    · simp only [getExchangesByDate, if_neg hif, hv]

/-- Witness for `read_by_date_contract` on the spec's own examples: the
malformed `"2026-2-28"` is rejected with the 400 body on any store, and the
well-formed `"2026-02-28"` on an empty store yields the empty-data shape. -/
theorem read_by_date_contract_witness :
    getCablesByDate [] "2026-2-28".toList = .badRequest invalidDateMsg ∧
    getCablesByDate [] "2026-02-28".toList =
      .missBody "2026-02-28".toList topicCables [] := by
  constructor
  · exact ((read_by_date_contract [] "2026-2-28".toList).1 (by decide) []).1
  · have h := ((read_by_date_contract [] "2026-02-28".toList).2 (by decide)).1
      (by decide)
    rw [h]
    decide

-- ── client-side date formatting (kafkaApi.ts) ───────────────────────────

/-- Decimal digits of `n`, most significant first, with structural fuel
(`fuel ≥ n` always suffices since `n` shrinks by a factor of 10). -/
def digitsGo : Nat → Nat → List Nat
  | 0, n => [n]
  | fuel + 1, n => if n < 10 then [n] else digitsGo fuel (n / 10) ++ [n % 10]

/-- JS `String(n)` on a non-negative integer: its decimal digit characters. -/
def natToChars (n : Nat) : JStr := (digitsGo n n).map Nat.digitChar

/-- JS `String.prototype.padStart(2, '0')`. -/
def padStart2 (s : JStr) : JStr := List.replicate (2 - s.length) '0' ++ s

/-- `formatDateForApi` of `kafkaApi.ts` on the components JS `Date` yields:
`getFullYear()`, `getMonth() + 1` (1–12) and `getDate()` (1–31), rendered as
`` `${year}-${month.padStart(2,'0')}-${day.padStart(2,'0')}` ``. -/
def formatDateForApi (year monthPlus1 day : Nat) : JStr :=
  natToChars year ++ '-' ::
    (padStart2 (natToChars monthPlus1) ++ '-' :: padStart2 (natToChars day))

theorem digitsGo_small (fuel n : Nat) (h : n < 10) : digitsGo fuel n = [n] := by
  cases fuel with
  | zero => rfl
  | succ f => simp only [digitsGo, if_pos h]

theorem digitsGo_step (fuel n : Nat) (h : 10 ≤ n) :
    digitsGo (fuel + 1) n = digitsGo fuel (n / 10) ++ [n % 10] := by
  simp only [digitsGo, if_neg (Nat.not_lt.mpr h)]

theorem isDigitCh_digitChar {k : Nat} (h : k < 10) :
    isDigitCh (Nat.digitChar k) = true := by
  interval_cases k <;> decide

theorem natToChars_four_digits (y : Nat) (h1 : 1000 ≤ y) (h2 : y ≤ 9999) :
    natToChars y =
      [Nat.digitChar (y / 1000), Nat.digitChar (y / 100 % 10),
       Nat.digitChar (y / 10 % 10), Nat.digitChar (y % 10)] := by
  obtain ⟨k, rfl⟩ : ∃ k, y = k + 3 := ⟨y - 3, by omega⟩
  unfold natToChars
  rw [digitsGo_step (k + 2) (k + 3) (by omega),
    digitsGo_step (k + 1) ((k + 3) / 10) (by omega),
    digitsGo_step k ((k + 3) / 10 / 10) (by omega),
    digitsGo_small k ((k + 3) / 10 / 10 / 10) (by omega)]
  simp only [List.map_append, List.map_cons, List.map_nil]
  have e1 : (k + 3) / 10 / 10 = (k + 3) / 100 := by omega
  rw [e1]
  have e2 : (k + 3) / 100 / 10 = (k + 3) / 1000 := by omega
  rw [e2]
  rfl

theorem padStart2_two_digits (n : Nat) (h : n ≤ 99) :
    ∃ a b, padStart2 (natToChars n) = [a, b] ∧
      isDigitCh a = true ∧ isDigitCh b = true := by
  by_cases hlt : n < 10
  · refine ⟨'0', Nat.digitChar n, ?_, by decide, isDigitCh_digitChar hlt⟩
    unfold natToChars
    rw [digitsGo_small n n hlt]
    rfl
  · refine ⟨Nat.digitChar (n / 10), Nat.digitChar (n % 10), ?_,
      isDigitCh_digitChar (by omega), isDigitCh_digitChar (by omega)⟩
    obtain ⟨k, rfl⟩ : ∃ k, n = k + 1 := ⟨n - 1, by omega⟩
    unfold natToChars
    rw [digitsGo_step k (k + 1) (by omega),
      digitsGo_small k ((k + 1) / 10) (by omega)]
    rfl

/-- **C10.** Client-side formatting always passes server validation: for any
calendar components with a four-digit year, `formatDateForApi` matches
`^\d{4}-\d{2}-\d{2}$`, so a request built from it never takes either
endpoint's invalid-date-format 400 branch, whatever the store contents. -/
theorem format_date_passes_validation (year monthPlus1 day : Nat)
    (hy1 : 1000 ≤ year) (hy2 : year ≤ 9999)
    (hm1 : 1 ≤ monthPlus1) (hm2 : monthPlus1 ≤ 12)
    (hd1 : 1 ≤ day) (hd2 : day ≤ 31) :
    matchesDatePattern (formatDateForApi year monthPlus1 day) = true ∧
    ∀ store : Store,
      getCablesByDate store (formatDateForApi year monthPlus1 day)
        ≠ .badRequest invalidDateMsg ∧
      getExchangesByDate store (formatDateForApi year monthPlus1 day)
        ≠ .badRequest invalidDateMsg := by
  obtain ⟨ma, mb, hmeq, hma, hmb⟩ := padStart2_two_digits monthPlus1 (by omega)
  obtain ⟨da, db, hdeq, hda, hdb⟩ := padStart2_two_digits day (by omega)
  have hpat : matchesDatePattern (formatDateForApi year monthPlus1 day) = true := by
    unfold formatDateForApi
    rw [natToChars_four_digits year hy1 hy2, hmeq, hdeq]
    simp only [List.cons_append, List.nil_append, matchesDatePattern,
      isDigitCh_digitChar (show year / 1000 % 10 < 10 by omega),
      isDigitCh_digitChar (show year / 1000 < 10 by omega),
      isDigitCh_digitChar (show year / 100 % 10 < 10 by omega),
      isDigitCh_digitChar (show year / 10 % 10 < 10 by omega),
      isDigitCh_digitChar (show year % 10 < 10 by omega),
      hma, hmb, hda, hdb, Bool.and_self, Bool.and_true, Bool.true_and]
    decide
  refine ⟨hpat, fun store => ?_⟩
  have hif : ¬((!matchesDatePattern (formatDateForApi year monthPlus1 day)) = true) := by
    rw [hpat]; exact Bool.false_ne_true
  constructor
  · simp only [getCablesByDate, if_neg hif]
    cases getDataForDate store topicCables (formatDateForApi year monthPlus1 day) <;>
      simp
  · simp only [getExchangesByDate, if_neg hif]
    cases getDataForDate store topicExchanges (formatDateForApi year monthPlus1 day) <;>
      simp

/-- Witness for `format_date_passes_validation` at February 28, 2026:
the formatter yields `"2026-02-28"` and the server accepts it. -/
theorem format_date_passes_validation_witness :
    matchesDatePattern (formatDateForApi 2026 2 28) = true ∧
    formatDateForApi 2026 2 28 = "2026-02-28".toList :=
  ⟨(format_date_passes_validation 2026 2 28 (by decide) (by decide) (by decide)
      (by decide) (by decide) (by decide)).1,
    by decide⟩

-- ── key decomposition: "topic:date" round-trips ─────────────────────────

theorem keyFor_inj {t t' : JStr} {d d' : JStr} (ht : ':' ∉ t) (ht' : ':' ∉ t')
    (h : keyFor t d = keyFor t' d') : t = t' ∧ d = d' := by
  induction t generalizing t' with
  | nil =>
    cases t' with
    | nil =>
      simp only [keyFor, List.nil_append, List.cons.injEq] at h
      exact ⟨rfl, h.2⟩
    | cons c' cs' =>
      simp only [keyFor, List.nil_append, List.cons_append, List.cons.injEq] at h
      exact absurd (h.1 ▸ List.mem_cons_self c' cs') (h.1 ▸ ht')
  | cons c cs ih =>
    cases t' with
    | nil =>
      simp only [keyFor, List.nil_append, List.cons_append, List.cons.injEq] at h
      exact absurd (h.1 ▸ List.mem_cons_self c cs) (h.1 ▸ ht)
    | cons c' cs' =>
      simp only [keyFor, List.cons_append, List.cons.injEq] at h
      have hcs : ':' ∉ cs := fun hx => ht (List.mem_cons_of_mem c hx)
      have hcs' : ':' ∉ cs' := fun hx => ht' (List.mem_cons_of_mem c' hx)
      obtain ⟨hts, hds⟩ := ih hcs hcs' h.2
      exact ⟨by rw [h.1, hts], hds⟩

theorem isPrefixOf_keyFor {t t' : JStr} (d' : JStr) (ht : ':' ∉ t) (ht' : ':' ∉ t') :
    (t ++ [':']).isPrefixOf (keyFor t' d') = true ↔ t = t' := by
  induction t generalizing t' with
  | nil =>
    cases t' with
    | nil => simp [keyFor, List.isPrefixOf]
    | cons c' cs' =>
      simp only [List.nil_append, keyFor, List.cons_append, List.isPrefixOf,
        Bool.and_eq_true, beq_iff_eq]
      constructor
      · rintro ⟨rfl, -⟩
        exact absurd (List.mem_cons_self ':' cs') ht'
      · intro h; exact absurd h (by simp)
  | cons c cs ih =>
    cases t' with
    | nil =>
      simp only [keyFor, List.nil_append, List.cons_append, List.isPrefixOf,
        Bool.and_eq_true, beq_iff_eq]
      constructor
      · rintro ⟨rfl, -⟩
        exact absurd (List.mem_cons_self ':' cs) ht
      · intro h; exact absurd h (by simp)
    | cons c' cs' =>
      have hcs : ':' ∉ cs := fun hx => ht (List.mem_cons_of_mem c hx)
      have hcs' : ':' ∉ cs' := fun hx => ht' (List.mem_cons_of_mem c' hx)
      have key := ih hcs hcs'
      have hstep : ((c :: cs) ++ [':']).isPrefixOf (keyFor (c' :: cs') d')
          = ((c == c') && (cs ++ [':']).isPrefixOf (keyFor cs' d')) := rfl
      rw [hstep, Bool.and_eq_true, beq_iff_eq, key]
      constructor
      · rintro ⟨rfl, rfl⟩; rfl
      · intro h
        injection h with h1 h2
        exact ⟨h1, h2⟩

theorem splitChar_ne_nil (sep : Char) (l : JStr) : splitChar sep l ≠ [] := by
  cases l with
  | nil => simp [splitChar]
  | cons c rest =>
    simp only [splitChar]
    rcases h : splitChar sep rest with _ | ⟨hh, tt⟩
    · simp
    · by_cases hc : c = sep <;> simp [hc]

theorem splitChar_sepFree {d : JStr} {sep : Char} (hd : sep ∉ d) :
    splitChar sep d = [d] := by
  induction d with
  | nil => rfl
  | cons c rest ih =>
    have hc : c ≠ sep := fun h => hd (h ▸ List.mem_cons_self c rest)
    have hrest : sep ∉ rest := fun h => hd (List.mem_cons_of_mem c h)
    simp only [splitChar, ih hrest, if_neg hc]

theorem splitChar_append {t r : JStr} {sep : Char} (ht : sep ∉ t) :
    splitChar sep (t ++ sep :: r) = t :: splitChar sep r := by
  induction t with
  | nil =>
    simp only [List.nil_append, splitChar]
    rcases h : splitChar sep r with _ | ⟨hh, tt⟩
    · exact absurd h (splitChar_ne_nil sep r)
    · simp
  | cons c cs ih =>
    have hc : c ≠ sep := fun h => ht (h ▸ List.mem_cons_self c cs)
    have hcs : sep ∉ cs := fun h => ht (List.mem_cons_of_mem c h)
    have hstep : splitChar sep ((c :: cs) ++ sep :: r)
        = match splitChar sep (cs ++ sep :: r) with
          | [] => [[]]
          | h :: t => if c = sep then [] :: h :: t else (c :: h) :: t := rfl
    rw [hstep, ih hcs]
    exact if_neg hc

theorem extract_keyFor {t d : JStr} (ht : ':' ∉ t) (hd : ':' ∉ d) :
    ((splitChar ':' (keyFor t d))[1]?).getD [] = d := by
  show ((splitChar ':' (t ++ ':' :: d))[1]?).getD [] = d
  rw [splitChar_append ht, splitChar_sepFree hd]
  rfl

-- ── clean stores: every key decomposes as colon-free "topic:date" ───────

/-- A key of the shape `topic ++ ":" ++ date` with colon-free topic and
nonempty colon-free date. -/
def CleanKey (k : JStr) : Prop :=
  ∃ t d, ':' ∉ t ∧ ':' ∉ d ∧ d ≠ [] ∧ k = keyFor t d

/-- Stores whose keys are duplicate-free and all of the clean shape. -/
def CleanStore (s : Store) : Prop :=
  (s.map Prod.fst).Nodup ∧ ∀ k ∈ s.map Prod.fst, CleanKey k

/-- A message is good when, if it would be applied at all, its topic and its
date are colon-free (the date is nonempty by the truthiness check itself). -/
def goodMsg (m : RawMsg) : Bool :=
  match m.parsed with
  | none => true
  | some v =>
    match v.date with
    | none => true
    | some d => d.isEmpty || (!decide (':' ∈ m.topic) && !decide (':' ∈ d))

theorem cleanStore_eachMessage {s : Store} {m : RawMsg} (hs : CleanStore s)
    (hm : goodMsg m = true) : CleanStore (eachMessage s m) := by
  obtain ⟨t, p⟩ := m
  cases p with
  | none => exact hs
  | some v =>
    obtain ⟨od, rest⟩ := v
    cases od with
    | none => exact hs
    | some d =>
      cases d with
      | nil => exact hs
      | cons c cs =>
        simp only [goodMsg, List.isEmpty_cons, Bool.false_or, Bool.and_eq_true,
          Bool.not_eq_true', decide_eq_false_iff_not] at hm
        have hd : (c :: cs) ≠ ([] : JStr) := by simp
        rw [eachMessage_applied s t (c :: cs) rest hd]
        refine ⟨nodup_keys_mapSet s _ _ hs.1, fun k hk => ?_⟩
        rcases (mem_keys_mapSet s (keyFor t (c :: cs)) k _).1 hk with rfl | hmem
        · exact ⟨t, c :: cs, hm.1, hm.2, hd, rfl⟩
        · exact hs.2 k hmem

theorem cleanStore_processMessages (msgs : List RawMsg) (s : Store)
    (hs : CleanStore s) (hm : ∀ m ∈ msgs, goodMsg m = true) :
    CleanStore (processMessages s msgs) := by
  induction msgs generalizing s with
  | nil => exact hs
  | cons m rest ih =>
    exact ih (eachMessage s m)
      (cleanStore_eachMessage hs (hm m (List.mem_cons_self m rest)))
      (fun m' hm' => hm m' (List.mem_cons_of_mem m hm'))

theorem cleanStore_nil : CleanStore [] :=
  ⟨List.nodup_nil, fun k hk => absurd hk (List.not_mem_nil k)⟩

-- ── the date list of a clean store ──────────────────────────────────────

/-- The pre-sort date list collected by `getAvailableDates`' loop. -/
def datesRaw (store : Store) (topic : JStr) : List JStr :=
  ((store.map Prod.fst).filter fun k => (topic ++ [':']).isPrefixOf k).map
    fun k => ((splitChar ':' k)[1]?).getD []

theorem getAvailableDates_eq_sort (store : Store) (topic : JStr) :
    getAvailableDates store topic = sortStrs (datesRaw store topic) := rfl

theorem mem_datesRaw {s : Store} (hs : CleanStore s) {t : JStr} (ht : ':' ∉ t)
    (d : JStr) : d ∈ datesRaw s t ↔ keyFor t d ∈ s.map Prod.fst := by
  constructor
  · intro hd
    obtain ⟨k, hk, hext⟩ := List.mem_map.1 hd
    obtain ⟨hkmem, hkpre⟩ := List.mem_filter.1 hk
    obtain ⟨t', d', ht', hd', hdne, rfl⟩ := hs.2 k hkmem
    have hteq : t = t' := (isPrefixOf_keyFor d' ht ht').1 hkpre
    subst hteq
    rw [extract_keyFor ht hd'] at hext
    subst hext
    exact hkmem
  · intro hmem
    obtain ⟨t', d', ht', hd', hdne, heq⟩ := hs.2 _ hmem
    obtain ⟨hteq, hdeq⟩ := keyFor_inj ht ht' heq
    subst hteq; subst hdeq
    refine List.mem_map.2 ⟨keyFor t d, List.mem_filter.2 ⟨hmem, ?_⟩, ?_⟩
    · exact (isPrefixOf_keyFor d ht ht).2 rfl
    · exact extract_keyFor ht hd'

theorem nodup_datesRaw {s : Store} (hs : CleanStore s) {t : JStr}
    (ht : ':' ∉ t) : (datesRaw s t).Nodup := by
  apply List.Nodup.map_on
  · intro k1 hk1 k2 hk2 hext
    obtain ⟨hm1, hp1⟩ := List.mem_filter.1 hk1
    obtain ⟨hm2, hp2⟩ := List.mem_filter.1 hk2
    obtain ⟨t1, d1, ht1, hd1, -, rfl⟩ := hs.2 k1 hm1
    obtain ⟨t2, d2, ht2, hd2, -, rfl⟩ := hs.2 k2 hm2
    have e1 : t = t1 := (isPrefixOf_keyFor d1 ht ht1).1 hp1
    have e2 : t = t2 := (isPrefixOf_keyFor d2 ht ht2).1 hp2
    subst e1; subst e2
    rw [extract_keyFor ht hd1, extract_keyFor ht hd2] at hext
    rw [hext]
  · exact hs.1.filter _

/-- **C7** is refuted as stated: the cache state reached by a single parsed
message whose (truthy) date `"20:26"` contains a colon is reachable, yet
`getAvailableDates` lists `"20"` — a date with no retrievable entry — because
the key `"cables:20:26"` is split at its first colon. -/
theorem date_index_counterexample :
    getAvailableDates
        (processMessages []
          [⟨"cables".toList, some ⟨some "20:26".toList, "p".toList⟩⟩])
        "cables".toList
      = ["20".toList] ∧
    getDataForDate
        (processMessages []
          [⟨"cables".toList, some ⟨some "20:26".toList, "p".toList⟩⟩])
        "cables".toList "20".toList
      = none := by
  constructor <;> decide

/-- **C7 amended.** Date-index invariant for colon-free data: for every cache
state reached from empty by messages whose applied topics and dates contain
no `':'` (in particular all `YYYY-MM-DD` dates), and every colon-free topic,
`getAvailableDates` is sorted ascending (lexicographically), duplicate-free,
and lists exactly the dates `d` for which a live entry exists under
`(topic, d)`. -/
theorem date_index_invariant (msgs : List RawMsg) (t : JStr)
    (hm : ∀ m ∈ msgs, goodMsg m = true) (ht : ':' ∉ t) :
    (getAvailableDates (processMessages [] msgs) t).Sorted StrLE ∧
    (getAvailableDates (processMessages [] msgs) t).Nodup ∧
    ∀ d, d ∈ getAvailableDates (processMessages [] msgs) t ↔
      (getDataForDate (processMessages [] msgs) t d).isSome := by
  have hs : CleanStore (processMessages [] msgs) :=
    cleanStore_processMessages msgs [] cleanStore_nil hm
  refine ⟨?_, ?_, fun d => ?_⟩
  · rw [getAvailableDates_eq_sort]
    exact sortStrs_sorted _
  · rw [getAvailableDates_eq_sort]
    exact ((sortStrs_perm _).nodup_iff).2 (nodup_datesRaw hs ht)
  · rw [getAvailableDates_eq_sort, mem_sortStrs, mem_datesRaw hs ht,
      getDataForDate, mapGet_isSome_iff_mem]

/-- Witness for `date_index_invariant`: two cables entries yield the sorted
list and the membership equivalence at `"2026-02-27"`. -/
theorem date_index_invariant_witness :
    (getAvailableDates
        (processMessages []
          [⟨"cables".toList, some ⟨some "2026-02-28".toList, "a".toList⟩⟩,
           ⟨"cables".toList, some ⟨some "2026-02-27".toList, "b".toList⟩⟩])
        "cables".toList).Sorted StrLE ∧
    ("2026-02-27".toList ∈
        getAvailableDates
          (processMessages []
            [⟨"cables".toList, some ⟨some "2026-02-28".toList, "a".toList⟩⟩,
             ⟨"cables".toList, some ⟨some "2026-02-27".toList, "b".toList⟩⟩])
          "cables".toList ↔
      (getDataForDate
          (processMessages []
            [⟨"cables".toList, some ⟨some "2026-02-28".toList, "a".toList⟩⟩,
             ⟨"cables".toList, some ⟨some "2026-02-27".toList, "b".toList⟩⟩])
          "cables".toList "2026-02-27".toList).isSome) := by
  have h := date_index_invariant
    [⟨"cables".toList, some ⟨some "2026-02-28".toList, "a".toList⟩⟩,
     ⟨"cables".toList, some ⟨some "2026-02-27".toList, "b".toList⟩⟩]
    "cables".toList (by decide) (by decide)
  exact ⟨h.1, h.2.2 _⟩

-- ── status snapshots in both topologies ─────────────────────────────────

/-- The common shape of the two status responses: `{status, lastMessageAt,
cachedEntries, availableDates: {cables, exchanges}}`. -/
structure StatusSnapshot where
  status : JStr
  lastMessageAt : Option JStr
  cachedEntries : Nat
  cablesDates : List JStr
  exchangesDates : List JStr
deriving DecidableEq

/-- `getStatus` of `kafka-consumer.js`: consumer status, last message time,
`dataStore.size`, and the per-topic sorted date lists. -/
def getStatus (store : Store) (consumerStatus : JStr)
    (lastMessageAt : Option JStr) : StatusSnapshot :=
  { status := consumerStatus
    lastMessageAt := lastMessageAt
    cachedEntries := store.length
    cablesDates := getAvailableDates store topicCables
    exchangesDates := getAvailableDates store topicExchanges }

/-- The KV status handler (`api/status`): `'ok'`, the stored `lastSyncAt`,
the summed sizes of the two per-topic date sets, and both sets sorted. -/
def kvStatusHandler (kv : KVStore) : StatusSnapshot :=
  { status := "ok".toList
    lastMessageAt := kv.lastSyncAt
    cachedEntries := (smembersList kv (datesKey topicCables)).length
      + (smembersList kv (datesKey topicExchanges)).length
    cablesDates := sortStrs (smembersList kv (datesKey topicCables))
    exchangesDates := sortStrs (smembersList kv (datesKey topicExchanges)) }

-- ── the durable writes track the in-memory writes ───────────────────────

theorem kvEachMessage_entries (kv : KVStore) (m : RawMsg) :
    (kvEachMessage kv m).entries = eachMessage kv.entries m := by
  obtain ⟨t, p⟩ := m
  cases p with
  | none => rfl
  | some v =>
    obtain ⟨od, rest⟩ := v
    cases od with
    | none => rfl
    | some d =>
      cases d with
      | nil => rfl
      | cons c cs =>
        have hd : (c :: cs) ≠ ([] : JStr) := by simp
        rw [kvEachMessage_applied kv t _ rest hd, eachMessage_applied kv.entries t _ rest hd]

theorem foldl_kvEachMessage_entries (msgs : List RawMsg) (kv : KVStore) :
    (msgs.foldl kvEachMessage kv).entries = processMessages kv.entries msgs := by
  induction msgs generalizing kv with
  | nil => rfl
  | cons m rest ih =>
    show (rest.foldl kvEachMessage (kvEachMessage kv m)).entries
      = processMessages (eachMessage kv.entries m) rest
    rw [ih (kvEachMessage kv m), kvEachMessage_entries]

-- ── the durable date-set index invariant ────────────────────────────────

theorem datesKey_inj {t t' : JStr} (h : datesKey t = datesKey t') : t = t' := by
  unfold datesKey at h
  have hlen : t.length = t'.length := by
    have := congrArg List.length h
    simp only [List.length_append] at this
    omega
  exact List.append_inj_left h hlen

theorem mem_saddList (S : List JStr) (x d : JStr) :
    d ∈ saddList S x ↔ d = x ∨ d ∈ S := by
  by_cases h : x ∈ S
  · rw [saddList_of_mem S h]
    constructor
    · exact Or.inr
    · rintro (rfl | hd)
      · exact h
      · exact hd
  · rw [saddList, if_neg h, List.mem_append, List.mem_singleton]
    tauto

theorem nodup_saddList (S : List JStr) (x : JStr) (h : S.Nodup) :
    (saddList S x).Nodup := by
  by_cases hx : x ∈ S
  · rw [saddList_of_mem S hx]; exact h
  · rw [saddList, if_neg hx]
    exact h.append (List.nodup_singleton x)
      (fun a ha hax => hx ((List.mem_singleton.1 hax) ▸ ha))

/-- The date-set index of a KV store is exact: for every colon-free topic,
its date set holds precisely the dates whose entry key is present. -/
def KVIndexOk (kv : KVStore) : Prop :=
  ∀ t : JStr, ':' ∉ t → ∀ d : JStr,
    (d ∈ smembersList kv (datesKey t) ↔ keyFor t d ∈ kv.entries.map Prod.fst)

/-- All date sets of the KV store are duplicate-free. -/
def KVSetsNodup (kv : KVStore) : Prop :=
  ∀ k : JStr, (smembersList kv k).Nodup

theorem smembersList_kvEachMessage_applied (kv : KVStore) (t₀ d₀ rest : JStr)
    (hd₀ : d₀ ≠ []) (k : JStr) :
    smembersList (kvEachMessage kv ⟨t₀, some ⟨some d₀, rest⟩⟩) k =
      if k = datesKey t₀ then
        saddList (smembersList kv (datesKey t₀)) d₀
      else smembersList kv k := by
  rw [kvEachMessage_applied kv t₀ d₀ rest hd₀]
  by_cases hk : k = datesKey t₀
  · subst hk
    simp only [smembersList, mapGet_mapSet_self, Option.getD_some, if_pos]
  · rw [if_neg hk]
    show (mapGet (mapSet kv.dateSets (datesKey t₀) _) k).getD []
      = (mapGet kv.dateSets k).getD []
    rw [mapGet_mapSet_ne _ _ hk]

theorem kvIndexOk_eachMessage {kv : KVStore} {m : RawMsg}
    (hix : KVIndexOk kv) (hm : goodMsg m = true) :
    KVIndexOk (kvEachMessage kv m) := by
  obtain ⟨t₀, p⟩ := m
  cases p with
  | none => exact hix
  | some v =>
    obtain ⟨od, rest⟩ := v
    cases od with
    | none => exact hix
    | some d₀ =>
      cases d₀ with
      | nil => exact hix
      | cons c cs =>
        simp only [goodMsg, List.isEmpty_cons, Bool.false_or, Bool.and_eq_true,
          Bool.not_eq_true', decide_eq_false_iff_not] at hm
        have hd₀ : (c :: cs) ≠ ([] : JStr) := by simp
        intro t ht d
        rw [smembersList_kvEachMessage_applied kv t₀ (c :: cs) rest hd₀]
        have hkeys : keyFor t d ∈ (kvEachMessage kv ⟨t₀, some ⟨some (c :: cs), rest⟩⟩).entries.map Prod.fst
            ↔ keyFor t d = keyFor t₀ (c :: cs) ∨ keyFor t d ∈ kv.entries.map Prod.fst := by
          rw [kvEachMessage_applied kv t₀ (c :: cs) rest hd₀]
          exact mem_keys_mapSet kv.entries (keyFor t₀ (c :: cs)) (keyFor t d) _
        rw [hkeys]
        by_cases hteq : t = t₀
        · subst hteq
          rw [if_pos rfl, mem_saddList, hix t ht d]
          constructor
          · rintro (rfl | hd)
            · exact Or.inl rfl
            · exact Or.inr hd
          · rintro (heq | hd)
            · exact Or.inl (keyFor_inj ht ht heq).2
            · exact Or.inr hd
        · rw [if_neg (fun hdk => hteq (datesKey_inj hdk)), hix t ht d]
          constructor
          · exact Or.inr
          · rintro (heq | hd)
            · exact absurd (keyFor_inj ht hm.1 heq).1 hteq
            · exact hd

theorem kvSetsNodup_eachMessage {kv : KVStore} {m : RawMsg}
    (hnd : KVSetsNodup kv) : KVSetsNodup (kvEachMessage kv m) := by
  obtain ⟨t₀, p⟩ := m
  cases p with
  | none => exact hnd
  | some v =>
    obtain ⟨od, rest⟩ := v
    cases od with
    | none => exact hnd
    | some d₀ =>
      cases d₀ with
      | nil => exact hnd
      | cons c cs =>
        have hd₀ : (c :: cs) ≠ ([] : JStr) := by simp
        intro k
        rw [smembersList_kvEachMessage_applied kv t₀ (c :: cs) rest hd₀]
        by_cases hk : k = datesKey t₀
        · rw [if_pos hk]
          exact nodup_saddList _ _ (hnd (datesKey t₀))
        · rw [if_neg hk]
          exact hnd k

theorem kvIndexOk_foldl (msgs : List RawMsg) (kv : KVStore)
    (hix : KVIndexOk kv) (hnd : KVSetsNodup kv)
    (hm : ∀ m ∈ msgs, goodMsg m = true) :
    KVIndexOk (msgs.foldl kvEachMessage kv) ∧
    KVSetsNodup (msgs.foldl kvEachMessage kv) := by
  induction msgs generalizing kv with
  | nil => exact ⟨hix, hnd⟩
  | cons m rest ih =>
    exact ih (kvEachMessage kv m)
      (kvIndexOk_eachMessage hix (hm m (List.mem_cons_self m rest)))
      (kvSetsNodup_eachMessage hnd)
      (fun m' hm' => hm m' (List.mem_cons_of_mem m hm'))

theorem emptyKV_indexOk : KVIndexOk ⟨[], [], none⟩ := by
  intro t ht d
  simp [smembersList, mapGet]

theorem emptyKV_setsNodup : KVSetsNodup ⟨[], [], none⟩ := by
  intro k
  simp [smembersList, mapGet]

-- ── dual-topology status agreement ──────────────────────────────────────

/-- A message is on one of the two configured topics (when it applies). -/
def topicIn2 (m : RawMsg) : Bool :=
  match m.parsed with
  | none => true
  | some v =>
    match v.date with
    | none => true
    | some d => d.isEmpty || (m.topic == topicCables || m.topic == topicExchanges)

/-- Every key of the store belongs to `cables` or `exchanges`. -/
def TwoTopicStore (s : Store) : Prop :=
  ∀ k ∈ s.map Prod.fst, ∃ d : JStr,
    k = keyFor topicCables d ∨ k = keyFor topicExchanges d

theorem twoTopic_eachMessage {s : Store} {m : RawMsg} (hs : TwoTopicStore s)
    (hm : topicIn2 m = true) : TwoTopicStore (eachMessage s m) := by
  obtain ⟨t, p⟩ := m
  cases p with
  | none => exact hs
  | some v =>
    obtain ⟨od, rest⟩ := v
    cases od with
    | none => exact hs
    | some d₀ =>
      cases d₀ with
      | nil => exact hs
      | cons c cs =>
        simp only [topicIn2, List.isEmpty_cons, Bool.false_or, Bool.or_eq_true,
          beq_iff_eq] at hm
        have hd : (c :: cs) ≠ ([] : JStr) := by simp
        rw [eachMessage_applied s t (c :: cs) rest hd]
        intro k hk
        rcases (mem_keys_mapSet s (keyFor t (c :: cs)) k _).1 hk with rfl | hmem
        · rcases hm with rfl | rfl
          · exact ⟨c :: cs, Or.inl rfl⟩
          · exact ⟨c :: cs, Or.inr rfl⟩
        · exact hs k hmem

theorem twoTopic_processMessages (msgs : List RawMsg) (s : Store)
    (hs : TwoTopicStore s) (hm : ∀ m ∈ msgs, topicIn2 m = true) :
    TwoTopicStore (processMessages s msgs) := by
  induction msgs generalizing s with
  | nil => exact hs
  | cons m rest ih =>
    exact ih (eachMessage s m)
      (twoTopic_eachMessage hs (hm m (List.mem_cons_self m rest)))
      (fun m' hm' => hm m' (List.mem_cons_of_mem m hm'))

theorem keyFor_left_inj (t : JStr) : Function.Injective (keyFor t) := by
  intro d d' h
  unfold keyFor at h
  have h2 := List.append_cancel_left h
  injection h2

theorem colon_not_mem_topicCables : ':' ∉ topicCables := by decide

theorem colon_not_mem_topicExchanges : ':' ∉ topicExchanges := by decide

/-- Per-topic agreement: after applying the same good messages on both
topologies, `getAvailableDates` on the in-memory store equals the sorted
date set read from KV. -/
theorem availableDates_agree (msgs : List RawMsg)
    (hm : ∀ m ∈ msgs, goodMsg m = true) (t : JStr) (ht : ':' ∉ t) :
    getAvailableDates (processMessages [] msgs) t
      = sortStrs (smembersList (msgs.foldl kvEachMessage ⟨[], [], none⟩)
          (datesKey t)) := by
  have hclean : CleanStore (processMessages [] msgs) :=
    cleanStore_processMessages msgs [] cleanStore_nil hm
  obtain ⟨hix, hnd⟩ := kvIndexOk_foldl msgs ⟨[], [], none⟩
    emptyKV_indexOk emptyKV_setsNodup hm
  have hent : (msgs.foldl kvEachMessage (⟨[], [], none⟩ : KVStore)).entries
      = processMessages [] msgs :=
    foldl_kvEachMessage_entries msgs ⟨[], [], none⟩
  rw [getAvailableDates_eq_sort]
  have hnd1 : (sortStrs (datesRaw (processMessages [] msgs) t)).Nodup :=
    ((sortStrs_perm _).nodup_iff).2 (nodup_datesRaw hclean ht)
  have hnd2 : (sortStrs (smembersList (msgs.foldl kvEachMessage ⟨[], [], none⟩)
      (datesKey t))).Nodup :=
    ((sortStrs_perm _).nodup_iff).2 (hnd (datesKey t))
  apply List.eq_of_perm_of_sorted _ (sortStrs_sorted _) (sortStrs_sorted _)
  apply (List.perm_ext_iff_of_nodup hnd1 hnd2).2
  intro d
  rw [mem_sortStrs, mem_sortStrs, mem_datesRaw hclean ht, hix t ht d, hent]

/-- Count agreement: the in-memory `dataStore.size` equals the sum of the
two KV date-set sizes, for good two-topic message streams. -/
theorem cachedEntries_agree (msgs : List RawMsg)
    (hm : ∀ m ∈ msgs, goodMsg m = true) (hm2 : ∀ m ∈ msgs, topicIn2 m = true) :
    (processMessages [] msgs).length
      = (smembersList (msgs.foldl kvEachMessage ⟨[], [], none⟩)
          (datesKey topicCables)).length
        + (smembersList (msgs.foldl kvEachMessage ⟨[], [], none⟩)
          (datesKey topicExchanges)).length := by
  have hclean : CleanStore (processMessages [] msgs) :=
    cleanStore_processMessages msgs [] cleanStore_nil hm
  have htwo : TwoTopicStore (processMessages [] msgs) :=
    twoTopic_processMessages msgs []
      (fun k hk => absurd hk (List.not_mem_nil k)) hm2
  obtain ⟨hix, hnd⟩ := kvIndexOk_foldl msgs ⟨[], [], none⟩
    emptyKV_indexOk emptyKV_setsNodup hm
  have hent : (msgs.foldl kvEachMessage (⟨[], [], none⟩ : KVStore)).entries
      = processMessages [] msgs :=
    foldl_kvEachMessage_entries msgs ⟨[], [], none⟩
  set mem := processMessages [] msgs with hmem
  set Sc := smembersList (msgs.foldl kvEachMessage ⟨[], [], none⟩)
    (datesKey topicCables) with hSc
  set Se := smembersList (msgs.foldl kvEachMessage ⟨[], [], none⟩)
    (datesKey topicExchanges) with hSe
  have hixc : ∀ d, d ∈ Sc ↔ keyFor topicCables d ∈ mem.map Prod.fst := by
    intro d
    rw [hSc, hix topicCables colon_not_mem_topicCables d, hent]
  have hixe : ∀ d, d ∈ Se ↔ keyFor topicExchanges d ∈ mem.map Prod.fst := by
    intro d
    rw [hSe, hix topicExchanges colon_not_mem_topicExchanges d, hent]
  have hLnodup : (Sc.map (keyFor topicCables)
      ++ Se.map (keyFor topicExchanges)).Nodup := by
    refine List.Nodup.append
      ((hnd _).map (keyFor_left_inj topicCables))
      ((hnd _).map (keyFor_left_inj topicExchanges)) ?_
    intro a ha hae
    obtain ⟨d1, -, rfl⟩ := List.mem_map.1 ha
    obtain ⟨d2, -, heq⟩ := List.mem_map.1 hae
    have := keyFor_inj colon_not_mem_topicExchanges colon_not_mem_topicCables heq
    exact absurd this.1 (by decide)
  have hperm : (mem.map Prod.fst).Perm
      (Sc.map (keyFor topicCables) ++ Se.map (keyFor topicExchanges)) := by
    apply (List.perm_ext_iff_of_nodup hclean.1 hLnodup).2
    intro k
    constructor
    · intro hk
      obtain ⟨d, hcase⟩ := htwo k hk
      rcases hcase with rfl | rfl
      · exact List.mem_append_left _
          (List.mem_map.2 ⟨d, (hixc d).2 hk, rfl⟩)
      · exact List.mem_append_right _
          (List.mem_map.2 ⟨d, (hixe d).2 hk, rfl⟩)
    · intro hk
      rcases List.mem_append.1 hk with hkl | hkr
      · obtain ⟨d, hd, rfl⟩ := List.mem_map.1 hkl
        exact (hixc d).1 hd
      · obtain ⟨d, hd, rfl⟩ := List.mem_map.1 hkr
        exact (hixe d).1 hd
  have hlen := hperm.length_eq
  rw [List.length_map, List.length_append, List.length_map, List.length_map] at hlen
  exact hlen

/-- **C9** is refuted as stated: identical cache contents do not force equal
status snapshots.  One parsed message on topic `cables` with the truthy date
`"20:26"` produces literally identical entry maps in both topologies, yet
the in-memory `getStatus` lists `["20"]` (the key `"cables:20:26"` is split
at its first colon) while the KV status handler lists `["20:26"]` (the date
is stored verbatim in the Redis set). -/
theorem dual_topology_status_counterexample :
    (([⟨"cables".toList, some ⟨some "20:26".toList, "p".toList⟩⟩] :
        List RawMsg).foldl kvEachMessage ⟨[], [], none⟩).entries
      = processMessages []
          [⟨"cables".toList, some ⟨some "20:26".toList, "p".toList⟩⟩] ∧
    (getStatus
        (processMessages []
          [⟨"cables".toList, some ⟨some "20:26".toList, "p".toList⟩⟩])
        "connected".toList none).cablesDates
      ≠ (kvStatusHandler
          (([⟨"cables".toList, some ⟨some "20:26".toList, "p".toList⟩⟩] :
            List RawMsg).foldl kvEachMessage ⟨[], [], none⟩)).cablesDates := by
  constructor <;> decide

/-- **C9 amended.** Dual-topology status equivalence for colon-free data:
from one and the same stream of good messages on the topics `cables` and
`exchanges` whose applied dates contain no `':'` (as every `YYYY-MM-DD` date
does not), the in-memory `getStatus` snapshot and the KV status handler's
snapshot agree on `cachedEntries` and on both sorted `availableDates`
lists. -/
theorem dual_topology_status (msgs : List RawMsg) (consumerStatus : JStr)
    (lastMessageAt : Option JStr)
    (hm : ∀ m ∈ msgs, goodMsg m = true) (hm2 : ∀ m ∈ msgs, topicIn2 m = true) :
    (getStatus (processMessages [] msgs) consumerStatus lastMessageAt).cachedEntries
      = (kvStatusHandler (msgs.foldl kvEachMessage ⟨[], [], none⟩)).cachedEntries ∧
    (getStatus (processMessages [] msgs) consumerStatus lastMessageAt).cablesDates
      = (kvStatusHandler (msgs.foldl kvEachMessage ⟨[], [], none⟩)).cablesDates ∧
    (getStatus (processMessages [] msgs) consumerStatus lastMessageAt).exchangesDates
      = (kvStatusHandler (msgs.foldl kvEachMessage ⟨[], [], none⟩)).exchangesDates := by
  refine ⟨?_, ?_, ?_⟩
  · exact cachedEntries_agree msgs hm hm2
  · exact availableDates_agree msgs hm topicCables colon_not_mem_topicCables
  · exact availableDates_agree msgs hm topicExchanges colon_not_mem_topicExchanges

/-- Witness for `dual_topology_status` on a concrete two-topic stream. -/
theorem dual_topology_status_witness :
    (getStatus
        (processMessages []
          [⟨"cables".toList, some ⟨some "2026-02-28".toList, "a".toList⟩⟩,
           ⟨"exchanges".toList, some ⟨some "2026-02-27".toList, "b".toList⟩⟩])
        "connected".toList none).cachedEntries
      = (kvStatusHandler
          (([⟨"cables".toList, some ⟨some "2026-02-28".toList, "a".toList⟩⟩,
             ⟨"exchanges".toList, some ⟨some "2026-02-27".toList, "b".toList⟩⟩] :
            List RawMsg).foldl kvEachMessage ⟨[], [], none⟩)).cachedEntries ∧
    (getStatus
        (processMessages []
          [⟨"cables".toList, some ⟨some "2026-02-28".toList, "a".toList⟩⟩,
           ⟨"exchanges".toList, some ⟨some "2026-02-27".toList, "b".toList⟩⟩])
        "connected".toList none).cablesDates
      = (kvStatusHandler
          (([⟨"cables".toList, some ⟨some "2026-02-28".toList, "a".toList⟩⟩,
             ⟨"exchanges".toList, some ⟨some "2026-02-27".toList, "b".toList⟩⟩] :
            List RawMsg).foldl kvEachMessage ⟨[], [], none⟩)).cablesDates := by
  have h := dual_topology_status
    [⟨"cables".toList, some ⟨some "2026-02-28".toList, "a".toList⟩⟩,
     ⟨"exchanges".toList, some ⟨some "2026-02-27".toList, "b".toList⟩⟩]
    "connected".toList none (by decide) (by decide)
  exact ⟨h.1, h.2.1⟩

end CableEx
